import Mathlib

/-!
Shallow embedding of the metric-learning loss engine
(`distances.py`, `losses/triplet.py`, `arcface.py`).

Tensors of real numbers are modelled as functions `ℕ → ℝ` (vectors) and
`ℕ → ℕ → ℝ` (matrices / batches of row vectors), together with explicit
dimension arguments; machine floats are modelled as real numbers.
Fallible operations (index translation with `i == j`, `argmin` of an
empty array, `mean` of an empty tensor) return `Option`.
-/

/-! ### Basic vector operations -/

/-- Dot product of the first `d` coordinates of two vectors. -/
def dotProd (d : ℕ) (u v : ℕ → ℝ) : ℝ :=
  ∑ k ∈ Finset.range d, u k * v k

/-- Euclidean (L2) norm of the first `d` coordinates of a vector. -/
noncomputable def l2norm (d : ℕ) (u : ℕ → ℝ) : ℝ :=
  Real.sqrt (∑ k ∈ Finset.range d, u k ^ 2)

/-- Epsilon used by `F.cosine_similarity` in `distances.py` (`eps=1e-8`). -/
noncomputable def cosEps : ℝ := 1e-8

/-- Embeds `F.cosine_similarity(x, y, dim=1, eps)` on one row pair:
`x·y / max(‖x‖₂‖y‖₂, eps)`. -/
noncomputable def cosineSimilarity (d : ℕ) (u v : ℕ → ℝ) : ℝ :=
  dotProd d u v / max (l2norm d u * l2norm d v) cosEps

/-! ### Distance implementations (`distances.py`) -/

/-- Embeds `CosineDistance.dist(x, y)`: per-row distance `1 - cosine_similarity`,
one scalar for each row `r` of the two batches. -/
noncomputable def cosDist (d : ℕ) (x y : ℕ → ℕ → ℝ) : ℕ → ℝ :=
  fun r => 1 - cosineSimilarity d (x r) (y r)

/-- One row of the euclidean distance: `‖u - v‖₂` over `d` features. -/
noncomputable def eucRow (d : ℕ) (u v : ℕ → ℝ) : ℝ :=
  Real.sqrt (∑ f ∈ Finset.range d, (u f - v f) ^ 2)

/-- Embeds `EuclideanDistance.dist(x, y) = torch.dist(x, y, p=2)`: a SINGLE scalar,
the L2 norm of the elementwise difference over the whole `(N, d)` batch. -/
noncomputable def eucDist (d N : ℕ) (x y : ℕ → ℕ → ℝ) : ℝ :=
  Real.sqrt (∑ r ∈ Finset.range N, ∑ f ∈ Finset.range d, (x r f - y r f) ^ 2)

/-- The condensed upper-triangular enumeration produced by the `pdist`
loop in `CosineDistance.pdist`: starting at row `s` with `len` rows left,
emit `f s (s+1), …, f s (s+len)` and recurse on row `s+1`. -/
def condRows {α : Type} (f : ℕ → ℕ → α) : ℕ → ℕ → List α
  | _, 0 => []
  | s, len + 1 =>
      ((List.range (len + 1)).map fun t => f s (s + 1 + t)) ++ condRows f (s + 1) len

/-- Embeds `CosineDistance.pdist(x)`: for `i in range(nbatch-1)` compute
`1 - cosine_similarity(x[i], x[i+1:])` and concatenate. -/
noncomputable def cosPdist (d n : ℕ) (x : ℕ → ℕ → ℝ) : List ℝ :=
  condRows (fun i j => 1 - cosineSimilarity d (x i) (x j)) 0 (n - 1)

/-- Embeds `EuclideanDistance.pdist(x) = F.pdist(x)`: the condensed vector of
row-pair euclidean distances, pairs `(i, j)`, `i < j`, `j` varying fastest
(PyTorch's documented upper-triangular row-major order). -/
noncomputable def eucPdist (d n : ℕ) (x : ℕ → ℕ → ℝ) : List ℝ :=
  condRows (fun i j => eucRow d (x i) (x j)) 0 (n - 1)

/-! ### Condensed index (`to_condensed`, from `pyannote`, quoted verbatim
in a comment in `distances.py`) -/

/-- The integer value `i*n - i*i/2 - 3*i/2 + j - 1` computed by
`to_condensed` after reordering `i ≤ j`; the two float half-terms combine
into the exact integer `i*(i+3)/2`. -/
def condensedIdx (n i j : ℕ) : ℕ :=
  min i j * n + max i j - 1 - min i j * (min i j + 3) / 2

/-- Embeds `to_condensed(n, i, j)`: raises `ValueError` (modelled as `none`) when
`i == j`, otherwise reorders the pair and returns the condensed offset. -/
def to_condensed (n i j : ℕ) : Option ℕ :=
  if i = j then none else some (condensedIdx n i j)

/-! ### Arithmetic facts about the condensed enumeration -/

/-- Recursive offset of the pair `(p, q)` (relative to the current start
row) inside `condRows _ _ len`. -/
def rIdx : ℕ → ℕ → ℕ → ℕ
  | _, 0, q => q - 1
  | len, p + 1, q => len + rIdx (len - 1) p (q - 1)

/-! ### Triplet sampling strategies (`losses/triplet.py`) -/

/-- Embeds `BatchAll.triplets(y, distances)`: every `(anchor, positive, negative)`
with `anchor ≠ positive`, equal anchor/positive labels and a differing
negative label, enumerated in the source's nested-loop order. -/
def batchAllTriplets (y : List ℕ) : List (ℕ × ℕ × ℕ) :=
  (List.range y.length).flatMap fun a =>
    (List.range y.length).flatMap fun p =>
      if a = p ∨ y.getD a 0 ≠ y.getD p 0 then []
      else
        (List.range y.length).flatMap fun ng =>
          if y.getD ng 0 = y.getD a 0 then [] else [(a, p, ng)]

/-- Scan underlying `np.argmin`: index of the first occurrence of the minimum;
raises (modelled `none`) on an empty input. Auxiliary scan. -/
noncomputable def npArgminAux (bestIdx : ℕ) (bestVal : ℝ) (cur : ℕ) : List ℝ → ℕ
  | [] => bestIdx
  | v :: rest =>
      if v < bestVal then npArgminAux cur v (cur + 1) rest
      else npArgminAux bestIdx bestVal (cur + 1) rest

/-- Embeds `np.argmin`: `none` on an empty array (NumPy raises `ValueError`). -/
noncomputable def npArgmin : List ℝ → Option ℕ
  | [] => none
  | v :: rest => some (npArgminAux 0 v 1 rest)

/-- Embeds `scipy.spatial.distance.squareform` applied to a condensed vector:
entry `(a, b)` of the square matrix (`0` on the diagonal). -/
noncomputable def sqEntry (n : ℕ) (dvec : List ℝ) (a b : ℕ) : ℝ :=
  if a = b then 0 else dvec.getD (condensedIdx n a b) 0

/-- One anchor iteration of `HardestNegative.triplets`: find the hardest
negative by `argmin` over the differing-label indices (failing when that
set is empty), then pair it with every valid positive. -/
noncomputable def hnAnchor (yv : ℕ → ℕ) (d : ℕ → ℕ → ℝ) (n a : ℕ) :
    Option (List (ℕ × ℕ × ℕ)) :=
  let neg := (List.range n).filter fun k => yv k != yv a
  (npArgmin (neg.map fun k => d a k)).map fun mi =>
    let negative := neg.getD mi 0
    (((List.range n).filter fun k => yv k == yv a).filter fun p => p != a).map
      fun p => (a, p, negative)

/-- Embeds `HardestNegative.triplets(y, distances)`: squareform the condensed
distances and process every anchor in order; any anchor failure (empty
negative set) aborts the whole call. -/
noncomputable def hardestNegativeTriplets (y : List ℕ) (dvec : List ℝ) :
    Option (List (ℕ × ℕ × ℕ)) :=
  let n := y.length
  ((List.range n).mapM (hnAnchor (fun k => y.getD k 0) (sqEntry n dvec) n)).map
    List.flatten

/-- Wraps `BatchAll` as a sampling function for the engine (it never fails). -/
def batchAllSampling (y : List ℕ) (_dvec : List ℝ) : Option (List (ℕ × ℕ × ℕ)) :=
  some (batchAllTriplets y)

/-- Embeds `SemiHardNegative.filter(dist_pos, dist_neg)`: real-valued keep mask,
entry `i` is `1.0` when `m >= dist_neg[i] or deviation >= dist_neg[i] - m`,
else `0.0`; `dist_pos` is never consulted. -/
noncomputable def semiHardFilter (m dev : ℝ) (dist_pos dist_neg : List ℝ) : List ℝ :=
  dist_neg.map fun dn => if m ≥ dn ∨ dev ≥ dn - m then (1 : ℝ) else 0

/-- Modelled from the spec (§4.3, claim C7), for comparison with
`semiHardFilter`: keep exactly the negatives whose distance lies within
the band `[margin, margin + deviation]`. -/
noncomputable def semiHardSpecMask (m dev : ℝ) (dist_pos dist_neg : List ℝ) : List ℝ :=
  dist_neg.map fun dn => if m ≤ dn ∧ dn ≤ m + dev then (1 : ℝ) else 0

/-! ### Triplet loss engine (`TripletLoss`) -/

/-- Per-triplet hinge `F.relu(dpos² - dneg² + margin)`. -/
noncomputable def hinge (margin dpos dneg : ℝ) : ℝ :=
  max 0 (dpos ^ 2 - dneg ^ 2 + margin)

/-- Embeds `tensor.mean()`: undefined (`NaN`, modelled `none`) on an empty list,
otherwise the sum divided by the length. -/
noncomputable def meanList (l : List ℝ) : Option ℝ :=
  if l.length = 0 then none else some (l.sum / l.length)

/-- Final reduction of `TripletLoss.forward`:
`loss.mean() if self.size_average else loss.sum()`. -/
noncomputable def tripletLossReduce (sizeAverage : Bool) (losses : List ℝ) : Option ℝ :=
  if sizeAverage then meanList losses else some losses.sum

/-- Embeds `TripletLoss._calculate_distances` after sampling: map the anchor/
positive and anchor/negative pairs through `to_condensed` (failing on a
degenerate pair) and fetch the condensed distances. -/
def calculateDistances (n : ℕ) (dvec : List ℝ) (trips : List (ℕ × ℕ × ℕ)) :
    Option (List ℝ × List ℝ) := do
  let pos ← trips.mapM fun t => to_condensed n t.1 t.2.1
  let neg ← trips.mapM fun t => to_condensed n t.1 t.2.2
  pure (pos.map fun k => dvec.getD k 0, neg.map fun k => dvec.getD k 0)

/-- Embeds `TripletLoss.forward(feat, logits, y)` in online mode, parametrised by
the distance's `pdist` (`pd`) and the sampling strategy. The `logits`
argument is declared but never read, as in the source. -/
noncomputable def tripletForwardOnline (pd : (ℕ → ℕ → ℝ) → List ℝ)
    (sampling : List ℕ → List ℝ → Option (List (ℕ × ℕ × ℕ)))
    (sizeAverage : Bool) (margin : ℝ) (n : ℕ)
    (feat logits : ℕ → ℕ → ℝ) (y : List ℕ) : Option ℝ :=
  let dvec := pd feat
  (sampling y dvec).bind fun trips =>
    (calculateDistances n dvec trips).bind fun dd =>
      tripletLossReduce sizeAverage (List.zipWith (hinge margin) dd.1 dd.2)

/-! ### ArcFace loss (`arcface.py`) -/

/-- Epsilon of `F.normalize` (`eps=1e-12`). -/
noncomputable def normEps : ℝ := 1e-12

/-- Embeds `F.normalize(u)` on one row of length `d`: `u / max(‖u‖₂, eps)`. -/
noncomputable def normalizeRow (d : ℕ) (u : ℕ → ℝ) : ℕ → ℝ :=
  fun k => u k / max (l2norm d u) normEps

/-- Embeds `cos_theta_j = torch.mm(xnorm, Wnorm)` where `xnorm` normalizes each
row of the `(N, dfeat)` batch and `Wnorm = F.normalize(W)` normalizes each
ROW of the `(dfeat, C)` matrix `W` (PyTorch's default `dim=1`). -/
noncomputable def arcCosMatrix (dfeat C : ℕ) (x W : ℕ → ℕ → ℝ) : ℕ → ℕ → ℝ :=
  fun r c => ∑ f ∈ Finset.range dfeat, normalizeRow dfeat (x r) f * normalizeRow C (W f) c

/-- Embeds `cos_theta_yi = cos_theta_j.gather(1, y)`: the entry of each sample's
own label column.  This exact, unclamped value is what `torch.acos`
receives in `ArcLoss.forward`. -/
noncomputable def arcCosThetaYi (dfeat C : ℕ) (x W : ℕ → ℕ → ℝ) (y : ℕ → ℕ) (r : ℕ) : ℝ :=
  arcCosMatrix dfeat C x W r (y r)

/-- The logits after margin injection:
`cos_theta_j + one_hot * (cos(acos(cos_theta_yi) + m) - cos_theta_yi)`. -/
noncomputable def arcInjected (dfeat C : ℕ) (m : ℝ) (x W : ℕ → ℕ → ℝ) (y : ℕ → ℕ) :
    ℕ → ℕ → ℝ :=
  fun r c =>
    arcCosMatrix dfeat C x W r c +
      (if c = y r then (1 : ℝ) else 0) *
        (Real.cos (Real.arccos (arcCosThetaYi dfeat C x W y r) + m) -
          arcCosThetaYi dfeat C x W y r)

/-- Embeds `nn.CrossEntropyLoss()` (mean reduction) over an `(N, C)` logit matrix
and integer labels: mean of `log ∑_c exp(logit) - logit_target`. -/
noncomputable def crossEntropyMean (C N : ℕ) (logits : ℕ → ℕ → ℝ) (y : ℕ → ℕ) : ℝ :=
  (∑ r ∈ Finset.range N, (Real.log (∑ c ∈ Finset.range C, Real.exp (logits r c)) -
    logits r (y r))) / N

/-- Embeds `ArcLoss.forward(x, y)`: scale the injected logits by `s` and apply
softmax cross entropy. -/
noncomputable def arcForward (dfeat C N : ℕ) (m s : ℝ) (x W : ℕ → ℕ → ℝ) (y : ℕ → ℕ) : ℝ :=
  crossEntropyMean C N (fun r c => s * arcInjected dfeat C m x W y r c) y

/-! ### Concrete inputs used by witnesses and counterexamples -/

/-- The all-ones matrix/batch. -/
def onesMat : ℕ → ℕ → ℝ := fun _ _ => 1

/-- A one-row feature batch `[[3, 4]]`. -/
noncomputable def feat34 : ℕ → ℕ → ℝ := fun _ f => if f = 0 then 3 else 4

/-- A two-row, one-feature batch `[[3], [4]]`. -/
noncomputable def rows34 : ℕ → ℕ → ℝ := fun r _ => if r = 0 then 3 else 4

/-- The all-zero matrix/batch. -/
def zeroMat : ℕ → ℕ → ℝ := fun _ _ => 0

/-- The all-zero label assignment. -/
def yzero : ℕ → ℕ := fun _ => 0

/-! ### Arithmetic facts about the condensed enumeration -/

theorem rIdx_closed (p : ℕ) : ∀ q m : ℕ, p < q → q ≤ m →
    rIdx m p q = p * (m + 1) + q - 1 - p * (p + 3) / 2 := by
  induction p with
  | zero =>
      intro q m hpq hqm
      simp [rIdx]
  | succ p ih =>
      intro q m hpq hqm
      obtain ⟨m', rfl⟩ : ∃ m', m = m' + 1 := ⟨m - 1, by omega⟩
      have hrec : rIdx (m' + 1) (p + 1) q = (m' + 1) + rIdx m' p (q - 1) := by
        simp [rIdx]
      rw [hrec, ih (q - 1) m' (by omega) (by omega)]
      have h1 : (p + 1) * (m' + 1 + 1) = p * (m' + 1) + (m' + 1) + (p + 1) := by ring
      have h2 : (p + 1) * (p + 1 + 3) = p * (p + 3) + 2 * (p + 2) := by ring
      obtain ⟨c, hc⟩ := Nat.even_mul_succ_self p
      have hc3 : p * (p + 3) = 2 * c + 2 * p := by
        have : p * (p + 3) = p * (p + 1) + 2 * p := by ring
        omega
      have hz : p * (p + 2) + p = p * (p + 3) := by ring
      have hmul : p * (p + 2) ≤ p * (m' + 1) :=
        Nat.mul_le_mul_left p (by omega)
      omega

theorem condRows_length {α : Type} (f : ℕ → ℕ → α) :
    ∀ len s : ℕ, (condRows f s len).length = len * (len + 1) / 2 := by
  intro len
  induction len with
  | zero => intro s; simp [condRows]
  | succ len ih =>
      intro s
      have h2 : (len + 1) * (len + 1 + 1) = len * (len + 1) + 2 * (len + 1) := by ring
      obtain ⟨c, hc⟩ := Nat.even_mul_succ_self len
      simp [condRows, ih]
      omega

theorem condRows_getElem? {α : Type} (f : ℕ → ℕ → α) (p : ℕ) :
    ∀ q len s : ℕ, p < q → q ≤ len →
      (condRows f s len)[rIdx len p q]? = some (f (s + p) (s + q)) := by
  induction p with
  | zero =>
      intro q len s hpq hql
      obtain ⟨l, rfl⟩ : ∃ l, len = l + 1 := ⟨len - 1, by omega⟩
      have hlt : q - 1 < ((List.range (l + 1)).map fun t => f s (s + 1 + t)).length := by
        simpa using (by omega : q - 1 < l + 1)
      rw [show condRows f s (l + 1) =
            ((List.range (l + 1)).map fun t => f s (s + 1 + t)) ++ condRows f (s + 1) l
          from rfl]
      rw [show rIdx (l + 1) 0 q = q - 1 from rfl]
      rw [List.getElem?_append, if_pos hlt]
      rw [List.getElem?_map]
      rw [List.getElem?_range (by omega : q - 1 < l + 1)]
      simp only [Option.map_some']
      congr 2
      omega
  | succ p ih =>
      intro q len s hpq hql
      obtain ⟨l, rfl⟩ : ∃ l, len = l + 1 := ⟨len - 1, by omega⟩
      have hblock : ((List.range (l + 1)).map fun t => f s (s + 1 + t)).length = l + 1 := by
        simp
      rw [show condRows f s (l + 1) =
            ((List.range (l + 1)).map fun t => f s (s + 1 + t)) ++ condRows f (s + 1) l
          from rfl]
      rw [show rIdx (l + 1) (p + 1) q = (l + 1) + rIdx l p (q - 1) from rfl]
      rw [List.getElem?_append_right (by omega)]
      rw [hblock]
      rw [show l + 1 + rIdx l p (q - 1) - (l + 1) = rIdx l p (q - 1) by omega]
      rw [ih (q - 1) l (s + 1) (by omega) (by omega)]
      congr 2 <;> omega

theorem condensedIdx_eq_rIdx (n i j : ℕ) (hij : i < j) (hjn : j < n) :
    condensedIdx n i j = rIdx (n - 1) i j := by
  rw [rIdx_closed i j (n - 1) hij (by omega)]
  have hmin : min i j = i := by omega
  have hmax : max i j = j := by omega
  rw [condensedIdx, hmin, hmax, show n - 1 + 1 = n by omega]

theorem condensedIdx_comm (n i j : ℕ) : condensedIdx n i j = condensedIdx n j i := by
  rw [condensedIdx, condensedIdx, min_comm, max_comm]

theorem condensedIdx_lt (n i j : ℕ) (hij : i < j) (hjn : j < n) :
    condensedIdx n i j < n * (n - 1) / 2 := by
  have hget := condRows_getElem? (fun a b : ℕ => (a, b)) i j (n - 1) 0 hij (by omega)
  have hlen := condRows_length (fun a b : ℕ => (a, b)) (n - 1) 0
  have hlt : rIdx (n - 1) i j < (condRows (fun a b : ℕ => (a, b)) 0 (n - 1)).length := by
    by_contra hge
    push_neg at hge
    rw [List.getElem?_eq_none hge] at hget
    exact Option.noConfusion hget
  have hmul : (n - 1) * (n - 1 + 1) = n * (n - 1) := by
    rw [Nat.mul_comm]
    congr 1
    omega
  rw [condensedIdx_eq_rIdx n i j hij hjn]
  omega

theorem condensedIdx_formula (n i j : ℕ) (hij : i < j) (hjn : j < n) :
    (condensedIdx n i j : ℤ) =
      (i : ℤ) * (n : ℤ) - (i : ℤ) * ((i : ℤ) + 1) / 2 - (i : ℤ) + (j : ℤ) - 1 := by
  have hmin : min i j = i := by omega
  have hmax : max i j = j := by omega
  obtain ⟨c, hc⟩ := Nat.even_mul_succ_self i
  have h3 : i * (i + 3) = c + c + 2 * i := by rw [← hc]; ring
  have hmul : i * (i + 2) ≤ i * n := Nat.mul_le_mul_left i (by omega)
  have h2 : i * (i + 2) + i = c + c + 2 * i := by rw [← h3]; ring
  have hK : condensedIdx n i j = i * n + j - 1 - (c + c + 2 * i) / 2 := by
    rw [condensedIdx, hmin, hmax, h3]
  have hcz : (i : ℤ) * ((i : ℤ) + 1) = (c : ℤ) + (c : ℤ) := by exact_mod_cast hc
  have hAz : (i : ℤ) * (n : ℤ) = ((i * n : ℕ) : ℤ) := by push_cast; ring
  rw [hK, hcz, hAz]
  omega

/-- C2: for `n ≥ 2` and valid `i ≠ j` the condensed offset is symmetric,
equals `i·n − i·(i+1)/2 − i + j − 1` after reordering so that `i < j`,
lies in `[0, n·(n−1)/2)`, and `to_condensed` fails exactly when the two
indices coincide. -/
theorem to_condensed_spec (n i j : ℕ) (hn : 2 ≤ n) (hi : i < n) (hj : j < n)
    (hij : i ≠ j) :
    to_condensed n i j = to_condensed n j i ∧
    (∀ k, to_condensed n i j = some k →
      (k : ℤ) = ((min i j : ℕ) : ℤ) * (n : ℤ) -
          ((min i j : ℕ) : ℤ) * (((min i j : ℕ) : ℤ) + 1) / 2 -
          ((min i j : ℕ) : ℤ) + ((max i j : ℕ) : ℤ) - 1 ∧
        k < n * (n - 1) / 2) ∧
    (∀ a b : ℕ, to_condensed n a b = none ↔ a = b) := by
  refine ⟨?_, ?_, ?_⟩
  · rw [to_condensed, to_condensed, if_neg hij, if_neg (Ne.symm hij),
      condensedIdx_comm]
  · intro k hk
    rw [to_condensed, if_neg hij] at hk
    obtain rfl : condensedIdx n i j = k := Option.some_inj.mp hk
    rcases Nat.lt_or_ge i j with h | h
    · have hminl : min i j = i := by omega
      have hmaxl : max i j = j := by omega
      rw [hminl, hmaxl]
      exact ⟨condensedIdx_formula n i j h hj, condensedIdx_lt n i j h hj⟩
    · have hji : j < i := by omega
      have hminl : min i j = j := by omega
      have hmaxl : max i j = i := by omega
      rw [hminl, hmaxl, condensedIdx_comm]
      exact ⟨condensedIdx_formula n j i hji hi, condensedIdx_lt n j i hji hi⟩
  · intro a b
    rw [to_condensed]
    split_ifs with h <;> simp [h]

theorem to_condensed_spec_witness :
    ((2 : ℕ) ≤ 3 ∧ (0 : ℕ) < 3 ∧ (2 : ℕ) < 3 ∧ (0 : ℕ) ≠ 2) ∧
      to_condensed 3 0 2 = to_condensed 3 2 0 :=
  ⟨⟨by norm_num, by norm_num, by norm_num, by norm_num⟩,
    (to_condensed_spec 3 0 2 (by norm_num) (by norm_num) (by norm_num)
      (by norm_num)).1⟩

/-- C1: for every batch of `n ≥ 2` rows and every pair `i < j < n`, the
condensed pairwise-distance vector agrees with the row-wise distance of
the two single-row slices through the condensed-index map, for
`CosineDistance` and for `EuclideanDistance`. -/
theorem pdist_condensed_roundtrip (d n i j k : ℕ) (x : ℕ → ℕ → ℝ)
    (hn : 2 ≤ n) (hij : i < j) (hjn : j < n) (hk : to_condensed n i j = some k) :
    (cosPdist d n x)[k]? = some (cosDist d (fun _ => x i) (fun _ => x j) 0) ∧
    (eucPdist d n x)[k]? = some (eucDist d 1 (fun _ => x i) (fun _ => x j)) := by
  have hkv : k = condensedIdx n i j := by
    rw [to_condensed, if_neg (by omega : ¬i = j)] at hk
    exact (Option.some_inj.mp hk).symm
  rw [hkv, condensedIdx_eq_rIdx n i j hij hjn]
  constructor
  · have h := condRows_getElem? (fun a b => 1 - cosineSimilarity d (x a) (x b))
      i j (n - 1) 0 hij (by omega)
    simpa [cosPdist, cosDist] using h
  · have h := condRows_getElem? (fun a b => eucRow d (x a) (x b))
      i j (n - 1) 0 hij (by omega)
    have heuc : eucDist d 1 (fun _ => x i) (fun _ => x j) = eucRow d (x i) (x j) := by
      rw [eucDist, eucRow, Finset.sum_range_one]
    rw [eucPdist, heuc]
    simpa using h

theorem pdist_condensed_roundtrip_witness :
    ((2 : ℕ) ≤ 2 ∧ (0 : ℕ) < 1 ∧ (1 : ℕ) < 2 ∧ to_condensed 2 0 1 = some 0) ∧
    ((cosPdist 1 2 onesMat)[0]? =
        some (cosDist 1 (fun _ => onesMat 0) (fun _ => onesMat 1) 0) ∧
      (eucPdist 1 2 onesMat)[0]? =
        some (eucDist 1 1 (fun _ => onesMat 0) (fun _ => onesMat 1))) :=
  ⟨⟨by norm_num, by norm_num, by norm_num, by decide⟩,
    pdist_condensed_roundtrip 1 2 0 1 0 onesMat (by norm_num) (by norm_num)
      (by norm_num) (by decide)⟩

/-! ### Triplet engine claims -/

theorem hardestNegative_allSame_none (dvec : List ℝ) :
    hardestNegativeTriplets [0, 0, 0] dvec = none := by
  have hneg : ((List.range 3).filter fun k =>
      (([0, 0, 0] : List ℕ).getD k 0) != (([0, 0, 0] : List ℕ).getD 0 0)) = [] := by
    decide
  have h0 : hnAnchor (fun k => ([0, 0, 0] : List ℕ).getD k 0)
      (sqEntry 3 dvec) 3 0 = none := by
    simp only [hnAnchor, hneg, List.map_nil]
    rfl
  have hrange : List.range 3 = [0, 1, 2] := by decide
  simp only [hardestNegativeTriplets, List.length_cons, List.length_nil, hrange]
  rw [List.mapM_cons, h0]
  rfl

/-- C3 (code bug): an all-identical label batch fed to `HardestNegative`
makes the online forward call fail (`np.argmin` of an empty candidate
set, i.e. `none`) in both reduction modes and for every distance
function, instead of returning a well-defined zero-contribution loss. -/
theorem hardestNegative_allSame_forward_fails (pd : (ℕ → ℕ → ℝ) → List ℝ)
    (sizeAverage : Bool) (margin : ℝ) (feat logits : ℕ → ℕ → ℝ) :
    tripletForwardOnline pd hardestNegativeTriplets sizeAverage margin 3
      feat logits [0, 0, 0] = none := by
  simp only [tripletForwardOnline, hardestNegative_allSame_none]
  rfl

/-- C10: the online `TripletLoss.forward` never reads its `logits`
argument, so its result is the same for any two logits values. -/
theorem tripletForward_ignores_logits (pd : (ℕ → ℕ → ℝ) → List ℝ)
    (sampling : List ℕ → List ℝ → Option (List (ℕ × ℕ × ℕ)))
    (sizeAverage : Bool) (margin : ℝ) (n : ℕ)
    (feat l1 l2 : ℕ → ℕ → ℝ) (y : List ℕ) :
    tripletForwardOnline pd sampling sizeAverage margin n feat l1 y =
      tripletForwardOnline pd sampling sizeAverage margin n feat l2 y := rfl

/-- C6: on a non-empty triplet set, the loss is the per-triplet hinge
`max(0, dpos² − dneg² + margin)` reduced by mean when size-averaging and
by sum otherwise; with `margin = 2` and `dpos = dneg = 0.5` the
per-triplet value is exactly `2`. -/
theorem triplet_hinge_spec (m : ℝ) (dp dn : List ℝ) (hne : dp ≠ [])
    (hlen : dp.length = dn.length) :
    (∀ p q : ℝ, hinge m p q = max 0 (p ^ 2 - q ^ 2 + m)) ∧
    tripletLossReduce true (List.zipWith (hinge m) dp dn) =
      some ((List.zipWith (hinge m) dp dn).sum /
        (List.zipWith (hinge m) dp dn).length) ∧
    tripletLossReduce false (List.zipWith (hinge m) dp dn) =
      some (List.zipWith (hinge m) dp dn).sum ∧
    hinge 2 (1 / 2) (1 / 2) = 2 := by
  have hz : (List.zipWith (hinge m) dp dn).length ≠ 0 := by
    rw [List.length_zipWith]
    have : dp.length ≠ 0 := fun h => hne (List.length_eq_zero.mp h)
    omega
  refine ⟨fun p q => rfl, ?_, rfl, ?_⟩
  · rw [tripletLossReduce, if_pos rfl, meanList, if_neg hz]
  · rw [hinge]
    rw [show (1 / 2 : ℝ) ^ 2 - (1 / 2 : ℝ) ^ 2 + 2 = 2 by ring]
    exact max_eq_right (by norm_num)

theorem triplet_hinge_spec_witness :
    (([(1 : ℝ) / 2] : List ℝ) ≠ [] ∧
      ([(1 : ℝ) / 2] : List ℝ).length = ([(1 : ℝ) / 2] : List ℝ).length) ∧
    hinge 2 (1 / 2) (1 / 2) = 2 :=
  ⟨⟨by simp, rfl⟩,
    (triplet_hinge_spec 2 [(1 : ℝ) / 2] [(1 : ℝ) / 2] (by simp) rfl).2.2.2⟩

/-- C5 counterexample: on the two-row batches `[[0],[0]]` and `[[3],[4]]`
`EuclideanDistance.dist` returns the single scalar `5` (the norm of the
whole difference), which is neither of the two row distances `3` and `4`,
so it is not "one scalar per row". -/
theorem euclidean_dist_not_rowwise_cex :
    eucDist 1 2 zeroMat rows34 = 5 ∧ eucRow 1 (zeroMat 0) (rows34 0) = 3 ∧
    eucRow 1 (zeroMat 1) (rows34 1) = 4 ∧ (5 : ℝ) ≠ 3 ∧ (5 : ℝ) ≠ 4 := by
  refine ⟨?_, ?_, ?_, by norm_num, by norm_num⟩
  · have h25 : (∑ r ∈ Finset.range 2, ∑ f ∈ Finset.range 1,
        (zeroMat r f - rows34 r f) ^ 2) = 25 := by
      rw [Finset.sum_range_succ, Finset.sum_range_one, Finset.sum_range_one,
        Finset.sum_range_one]
      norm_num [zeroMat, rows34]
    rw [eucDist, h25, show (25 : ℝ) = 5 ^ 2 by norm_num,
      Real.sqrt_sq (by norm_num : (0 : ℝ) ≤ 5)]
  · have h9 : (∑ f ∈ Finset.range 1, (zeroMat 0 f - rows34 0 f) ^ 2) = 9 := by
      rw [Finset.sum_range_one]
      norm_num [zeroMat, rows34]
    rw [eucRow, h9, show (9 : ℝ) = 3 ^ 2 by norm_num,
      Real.sqrt_sq (by norm_num : (0 : ℝ) ≤ 3)]
  · have h16 : (∑ f ∈ Finset.range 1, (zeroMat 1 f - rows34 1 f) ^ 2) = 16 := by
      rw [Finset.sum_range_one]
      norm_num [zeroMat, rows34]
    rw [eucRow, h16, show (16 : ℝ) = 4 ^ 2 by norm_num,
      Real.sqrt_sq (by norm_num : (0 : ℝ) ≤ 4)]

/-- C5 amended: `CosineDistance.dist` is one scalar per row, while
`EuclideanDistance.dist` is a single scalar — the square root of the sum
of the squared per-row distances — which coincides with the per-row
distance only on single-row batches. -/
theorem dist_per_row_amended (d N : ℕ) (x y : ℕ → ℕ → ℝ) :
    (∀ r, cosDist d x y r = 1 - cosineSimilarity d (x r) (y r)) ∧
    eucDist d N x y = Real.sqrt (∑ r ∈ Finset.range N, eucRow d (x r) (y r) ^ 2) ∧
    eucDist d 1 x y = eucRow d (x 0) (y 0) := by
  refine ⟨fun r => rfl, ?_, ?_⟩
  · rw [eucDist]
    congr 1
    refine Finset.sum_congr rfl fun r _ => ?_
    rw [eucRow, Real.sq_sqrt]
    exact Finset.sum_nonneg fun f _ => sq_nonneg _
  · rw [eucDist, Finset.sum_range_one, eucRow]

/-- C7 counterexample: with `margin = 1`, `deviation = 1`, a trivially
easy negative at distance `0` is KEPT by the source filter (mask `[1]`),
while the claimed band `[margin, margin + deviation]` would discard it
(mask `[0]`). -/
theorem semi_hard_filter_cex :
    semiHardFilter 1 1 [0] [0] = [1] ∧ semiHardSpecMask 1 1 [0] [0] = [0] ∧
    ([(1 : ℝ)] : List ℝ) ≠ [(0 : ℝ)] := by
  refine ⟨?_, ?_, by simp⟩
  · rw [semiHardFilter, List.map_cons, List.map_nil,
      if_pos (Or.inl (by norm_num : (1 : ℝ) ≥ 0))]
  · rw [semiHardSpecMask, List.map_cons, List.map_nil, if_neg]
    rintro ⟨h1, -⟩
    exact absurd h1 (by norm_num)

/-- C7 amended: the filter returns a mask aligned with `dist_neg` (same
length, triplet count unchanged) that never consults `dist_pos` and, for
`deviation ≥ 0`, keeps exactly the negatives with
`dist_neg[i] ≤ margin + deviation` — including trivially easy ones. -/
theorem semi_hard_filter_amended (m dev : ℝ) (dp dp' dn : List ℝ) (hdev : 0 ≤ dev) :
    (semiHardFilter m dev dp dn).length = dn.length ∧
    semiHardFilter m dev dp dn = semiHardFilter m dev dp' dn ∧
    semiHardFilter m dev dp dn =
      dn.map fun v => if v ≤ m + dev then (1 : ℝ) else 0 := by
  refine ⟨by rw [semiHardFilter, List.length_map], rfl, ?_⟩
  rw [semiHardFilter]
  refine List.map_congr_left fun v _ => ?_
  by_cases h : v ≤ m + dev
  · rw [if_pos h, if_pos]
    rcases le_or_lt v m with hvm | hvm
    · exact Or.inl hvm
    · exact Or.inr (by linarith)
  · rw [if_neg h, if_neg]
    rintro (h1 | h1) <;> [linarith; linarith]

theorem semi_hard_filter_amended_witness :
    (0 : ℝ) ≤ 1 ∧ (semiHardFilter 1 1 [0] [0]).length = ([(0 : ℝ)] : List ℝ).length :=
  ⟨by norm_num, (semi_hard_filter_amended 1 1 [0] [0] [0] (by norm_num)).1⟩

theorem mem_ite_nil {α : Type} (c : Prop) [Decidable c] (l : List α) (x : α) :
    (x ∈ if c then ([] : List α) else l) ↔ ¬c ∧ x ∈ l := by
  split_ifs with h <;> simp [h]

/-- C9: `BatchAll.triplets` returns exactly the index triples with
`anchor ≠ positive`, equal anchor/positive labels and a differing
negative label; on labels `[0,0,1]` it returns exactly
`[(0,1,2), (1,0,2)]`. -/
theorem batch_all_spec (y : List ℕ) (a p ng : ℕ) :
    ((a, p, ng) ∈ batchAllTriplets y ↔
      a < y.length ∧ p < y.length ∧ ng < y.length ∧ a ≠ p ∧
        y.getD a 0 = y.getD p 0 ∧ y.getD ng 0 ≠ y.getD a 0) ∧
    batchAllTriplets [0, 0, 1] = [(0, 1, 2), (1, 0, 2)] := by
  constructor
  · rw [batchAllTriplets]
    simp only [List.mem_flatMap, List.mem_range, mem_ite_nil, List.mem_singleton,
      Prod.mk.injEq, not_or, not_not]
    constructor
    · rintro ⟨a', ha', p', hp', ⟨hap, hlab⟩, ng', hng', hneg, rfl, rfl, rfl⟩
      exact ⟨ha', hp', hng', hap, hlab, hneg⟩
    · rintro ⟨ha, hp, hng, hap, hlab, hneg⟩
      exact ⟨a, ha, p, hp, ⟨hap, hlab⟩, ng, hng, hneg, rfl, rfl, rfl⟩
  · decide

/-! ### ArcFace claims -/

theorem normalizeRow_ones (f c : ℕ) : normalizeRow 1 (onesMat f) c = 1 := by
  rw [normalizeRow]
  have h1 : l2norm 1 (onesMat f) = 1 := by
    rw [l2norm, Finset.sum_range_one]
    norm_num [onesMat]
  rw [h1, max_eq_left (by norm_num [normEps])]
  norm_num [onesMat]

theorem arcArg_feat34 : arcCosThetaYi 2 1 feat34 onesMat yzero 0 = 7 / 5 := by
  rw [arcCosThetaYi]
  show arcCosMatrix 2 1 feat34 onesMat 0 0 = 7 / 5
  have hx : l2norm 2 (feat34 0) = 5 := by
    have h25 : feat34 0 0 ^ 2 + feat34 0 1 ^ 2 = 25 := by norm_num [feat34]
    rw [l2norm, Finset.sum_range_succ, Finset.sum_range_one, h25,
      show (25 : ℝ) = 5 ^ 2 by norm_num, Real.sqrt_sq (by norm_num : (0 : ℝ) ≤ 5)]
  rw [arcCosMatrix, Finset.sum_range_succ, Finset.sum_range_one,
    normalizeRow_ones 0 0, normalizeRow_ones 1 0, mul_one, mul_one]
  simp only [normalizeRow, hx]
  rw [max_eq_left (by norm_num [normEps] : normEps ≤ (5 : ℝ))]
  norm_num [feat34]

/-- C4 counterexample: on the one-row batch `[[3, 4]]` with the all-ones
`(2, 1)` center matrix, the value handed to `torch.acos` is `7/5 > 1`: it
is not clamped into `[-1+ε, 1-ε]` (nor into `[-1, 1]`) before `acos`. -/
theorem arccos_arg_not_clamped_cex :
    arcCosThetaYi 2 1 feat34 onesMat yzero 0 = 7 / 5 ∧
    ¬(arcCosThetaYi 2 1 feat34 onesMat yzero 0 ≤ 1) :=
  ⟨arcArg_feat34, by rw [arcArg_feat34]; norm_num⟩

/-- C4 amended: no clamping is performed — `acos` receives exactly the
raw gathered cosine entry, and because `W` is normalized along rows
rather than columns this argument can leave the valid domain (it is
`7/5 > 1` on the counterexample input). -/
theorem arccos_arg_unclamped :
    (∀ (dfeat C : ℕ) (x W : ℕ → ℕ → ℝ) (y : ℕ → ℕ) (r : ℕ),
      arcCosThetaYi dfeat C x W y r = arcCosMatrix dfeat C x W r (y r)) ∧
    arcCosThetaYi 2 1 feat34 onesMat yzero 0 = 7 / 5 ∧ (1 : ℝ) < 7 / 5 :=
  ⟨fun _ _ _ _ _ _ => rfl, arcArg_feat34, by norm_num⟩

/-- C8 counterexample: with `m = 0`, on the `[[3, 4]]` input the target
entry of the injected logit matrix becomes `cos(arccos(7/5)) = 1 ≠ 7/5`,
so the target column is NOT left unchanged when the gathered cosine lies
outside `[-1, 1]`. -/
theorem arc_margin_zero_changes_target_cex :
    arcInjected 2 1 0 feat34 onesMat yzero 0 0 = 1 ∧
    arcCosMatrix 2 1 feat34 onesMat 0 0 = 7 / 5 ∧ (1 : ℝ) ≠ 7 / 5 := by
  have hraw : arcCosMatrix 2 1 feat34 onesMat 0 0 = 7 / 5 := arcArg_feat34
  refine ⟨?_, hraw, by norm_num⟩
  simp only [arcInjected]
  rw [show yzero 0 = 0 from rfl, if_pos rfl, one_mul, add_zero, arcArg_feat34,
    Real.arccos_eq_zero.mpr (by norm_num : (1 : ℝ) ≤ 7 / 5), Real.cos_zero, hraw]
  norm_num

/-- C8 amended: margin injection changes only each sample's target-label
entry (all other entries of the `(N, C)` cosine matrix are untouched);
and PROVIDED each sample's gathered cosine lies in `[-1, 1]`, with
`m = 0` the target entries are also unchanged and the loss with `s = 1`
equals cross-entropy over the raw cosine logits. -/
theorem arc_margin_frame (dfeat C N : ℕ) (x W : ℕ → ℕ → ℝ) (y : ℕ → ℕ) :
    (∀ (m : ℝ) (r c : ℕ), c ≠ y r →
      arcInjected dfeat C m x W y r c = arcCosMatrix dfeat C x W r c) ∧
    ((∀ r, r < N → -1 ≤ arcCosThetaYi dfeat C x W y r ∧
        arcCosThetaYi dfeat C x W y r ≤ 1) →
      (∀ r c, r < N →
        arcInjected dfeat C 0 x W y r c = arcCosMatrix dfeat C x W r c) ∧
      arcForward dfeat C N 0 1 x W y =
        crossEntropyMean C N (arcCosMatrix dfeat C x W) y) := by
  have hframe : ∀ (m : ℝ) (r c : ℕ), c ≠ y r →
      arcInjected dfeat C m x W y r c = arcCosMatrix dfeat C x W r c := by
    intro m r c hc
    simp only [arcInjected, if_neg hc, zero_mul, add_zero]
  refine ⟨hframe, fun hdom => ?_⟩
  have hpoint : ∀ r c, r < N →
      arcInjected dfeat C 0 x W y r c = arcCosMatrix dfeat C x W r c := by
    intro r c hr
    by_cases hc : c = y r
    · simp only [arcInjected, if_pos hc, one_mul]
      rw [add_zero, Real.cos_arccos (hdom r hr).1 (hdom r hr).2, sub_self, add_zero]
    · exact hframe 0 r c hc
  refine ⟨hpoint, ?_⟩
  rw [arcForward, crossEntropyMean, crossEntropyMean]
  congr 1
  refine Finset.sum_congr rfl fun r hr => ?_
  have hrN : r < N := Finset.mem_range.mp hr
  congr 1
  · congr 1
    refine Finset.sum_congr rfl fun c _ => ?_
    rw [one_mul, hpoint r c hrN]
  · rw [one_mul, hpoint r (y r) hrN]

theorem arcArg_ones (r : ℕ) : arcCosThetaYi 1 1 onesMat onesMat yzero r = 1 := by
  rw [arcCosThetaYi]
  show arcCosMatrix 1 1 onesMat onesMat r 0 = 1
  rw [arcCosMatrix, Finset.sum_range_one, normalizeRow_ones, normalizeRow_ones,
    mul_one]

theorem arc_margin_frame_witness :
    (∀ r, r < 1 → -1 ≤ arcCosThetaYi 1 1 onesMat onesMat yzero r ∧
        arcCosThetaYi 1 1 onesMat onesMat yzero r ≤ 1) ∧
    arcForward 1 1 1 0 1 onesMat onesMat yzero =
      crossEntropyMean 1 1 (arcCosMatrix 1 1 onesMat onesMat) yzero := by
  have hdom : ∀ r, r < 1 → -1 ≤ arcCosThetaYi 1 1 onesMat onesMat yzero r ∧
      arcCosThetaYi 1 1 onesMat onesMat yzero r ≤ 1 := by
    intro r _
    rw [arcArg_ones r]
    constructor <;> norm_num
  exact ⟨hdom, ((arc_margin_frame 1 1 1 onesMat onesMat yzero).2 hdom).2⟩
